import Mathlib

/-!
Shallow embedding of the position-ledger and trading-calendar subsystem of the
AI-Trader repository (files `src/tools/price_tools.py`,
`src/tools/trading_calendar.py`, `src/agent/base_agent/live_agent_hour.py`),
together with theorems settling the specification claims about it.

Conventions of the embedding:
* Python `datetime.date` values are modelled by `TDate` (proleptic Gregorian
  calendar); day arithmetic goes through the day count `TDate.toZ` (days since
  0000-03-01), exactly the arithmetic `timedelta(days = n)` performs.
* Python `dict` position mappings are modelled as association lists
  (`Positions`) with first-key-wins lookup; records written by the code have
  distinct keys, so this coincides with dict semantics.
* A jsonl ledger file is a `List Line`; a `Line` is either a whitespace-only
  line, a line that fails to parse as JSON, or a well-formed record carrying
  the fields `date`, `id`, `this_action`, `positions` that the code writes.
* Fallible Python functions (ones that can raise an uncaught exception on the
  modelled inputs, e.g. `strptime` on a malformed date string) return
  `Option`; `none` models the raised exception.
-/

/-! ## Gregorian date layer (model of Python `datetime.date` arithmetic) -/

/-- A calendar date, as Python's `datetime.date`: year, month, day. -/
structure TDate where
  year : Nat
  month : Nat
  day : Nat
  deriving DecidableEq, Repr

/-- Number of days in a month of a given year (proleptic Gregorian). -/
def daysInMonth (y m : Nat) : Nat :=
  if m = 2 then
    if y % 4 = 0 ∧ (y % 100 ≠ 0 ∨ y % 400 = 0) then 29 else 28
  else if m = 4 ∨ m = 6 ∨ m = 9 ∨ m = 11 then 30
  else 31

/-- Day count since 0000-03-01 (civil-from-date, Gregorian). This is the day
arithmetic `datetime.timedelta` performs, shifted to a Nat-friendly epoch. -/
def TDate.toZ (dt : TDate) : Nat :=
  let y := if dt.month ≤ 2 then dt.year - 1 else dt.year
  let era := y / 400
  let yoe := y % 400
  let mp := if 2 < dt.month then dt.month - 3 else dt.month + 9
  let doy := (153 * mp + 2) / 5 + (dt.day - 1)
  let doe := yoe * 365 + yoe / 4 - yoe / 100 + doy
  era * 146097 + doe

/-- Date from a day count since 0000-03-01 (date-from-civil, Gregorian). -/
def TDate.fromZ (z : Nat) : TDate :=
  let era := z / 146097
  let doe := z % 146097
  let yoe := (doe - doe / 1460 + doe / 36524 - doe / 146096) / 365
  let y := yoe + era * 400
  let doy := doe - (365 * yoe + yoe / 4 - yoe / 100)
  let mp := (5 * doy + 2) / 153
  let d := doy - (153 * mp + 2) / 5 + 1
  let m := if mp < 10 then mp + 3 else mp - 9
  ⟨if m ≤ 2 then y + 1 else y, m, d⟩

/-- Python `date.weekday()`: Monday = 0, ..., Sunday = 6, computed from the
day count (0000-03-01 was a Wednesday, weekday 2). -/
def weekdayZ (z : Nat) : Nat := (z + 2) % 7

/-- Left-pad the decimal representation of `n` with zeros to width `w`,
as Python's `%02d` / `%04d` formatting. -/
def padNat (w n : Nat) : String :=
  let s := toString n
  ⟨List.replicate (w - s.length) '0'⟩ ++ s

/-- Python `date.strftime("%Y-%m-%d")`. -/
def TDate.format (dt : TDate) : String :=
  padNat 4 dt.year ++ "-" ++ padNat 2 dt.month ++ "-" ++ padNat 2 dt.day

/-- Python `strftime("%Y-%m-%d")` applied to a day count. -/
def formatZ (z : Nat) : String := (TDate.fromZ z).format

/-- Split a character list on `'-'` (groups between dashes, in order). -/
def splitOnDash (cs : List Char) : List (List Char) :=
  match cs with
  | [] => [[]]
  | c :: rest =>
      if c = '-' then [] :: splitOnDash rest
      else
        match splitOnDash rest with
        | g :: gs => (c :: g) :: gs
        | [] => [[c]]

/-- Numeric value of a non-empty group of decimal digits (`none` otherwise). -/
def digitGroup (cs : List Char) : Option Nat :=
  match cs with
  | [] => none
  | _ =>
      cs.foldl (fun acc c => acc.bind fun n =>
        if c.isDigit then some (n * 10 + (c.toNat - 48)) else none) (some 0)

/-- Python `datetime.strptime(s, "%Y-%m-%d")`: `none` models the raised
`ValueError`. Accepts the dash-separated digit groups `strptime` accepts
(up to 4 digits for `%Y`, up to 2 for `%m`/`%d`) and validates ranges
exactly as `datetime` construction does. -/
def parseDate (s : String) : Option TDate :=
  match splitOnDash s.data with
  | [ys, ms, ds] =>
      match digitGroup ys, digitGroup ms, digitGroup ds with
      | some y, some m, some d =>
          if ys.length ≤ 4 ∧ ms.length ≤ 2 ∧ ds.length ≤ 2 ∧
             1 ≤ y ∧ 1 ≤ m ∧ m ≤ 12 ∧ 1 ≤ d ∧ d ≤ daysInMonth y m then
            some ⟨y, m, d⟩
          else none
      | _, _, _ => none
  | _ => none

/-! ## `get_yesterday_date` (price_tools.py lines 30-48) -/

/-- The `while yesterday_dt.weekday() >= 5: yesterday_dt -= timedelta(days=1)`
loop of `get_yesterday_date`, with explicit fuel (the loop runs at most twice;
any fuel ≥ 2 gives the Python behaviour). -/
def skipWeekendBack (fuel z : Nat) : Nat :=
  match fuel with
  | 0 => z
  | fuel + 1 => if 5 ≤ weekdayZ z then skipWeekendBack fuel (z - 1) else z

/-- Model of `get_yesterday_date(today_date)`: previous calendar day, moved back past a
weekend. `none` models the `ValueError` raised by `strptime` on a malformed
`today_date`. -/
def getYesterdayDate (today : String) : Option String :=
  (parseDate today).map fun dt => formatZ (skipWeekendBack 7 (dt.toZ - 1))

/-! ## Ledger data model (the jsonl records written by `price_tools.py`) -/

/-- The `this_action` object of a ledger record. -/
structure TAction where
  action : String
  symbol : String
  amount : Int
  deriving DecidableEq, Repr

/-- Position mapping (Python dict `{symbol: quantity}`), as an association
list. Quantities are modelled as integers; the claims under verification only
compare quantities and never do arithmetic on them, so the float/int
distinction is immaterial. -/
abbrev Positions := List (String × Int)

/-- Python `dict.get(k, dflt)`. -/
def Positions.get (p : Positions) (k : String) (dflt : Int) : Int :=
  (List.lookup k p).getD dflt

/-- Python `dict[k] = v`: replace in place if present, else append. -/
def Positions.set (p : Positions) (k : String) (v : Int) : Positions :=
  if p.any (fun kv => kv.1 == k) then
    p.map fun kv => bif kv.1 == k then (k, v) else kv
  else p ++ [(k, v)]

/-- Python `dict.keys()` (first occurrence wins, as dict keys are unique). -/
def Positions.keys (p : Positions) : List String :=
  (p.map Prod.fst).eraseDups

/-- One well-formed ledger record (a parsed jsonl line with the fields the
code writes: `date`, `id`, `this_action`, `positions`). -/
structure PRec where
  date : String
  id : Int
  positions : Positions
  thisAction : TAction
  deriving DecidableEq, Repr

/-- One line of a ledger file. -/
inductive Line where
  /-- A whitespace-only line (skipped by `if not line.strip(): continue`). -/
  | blank : Line
  /-- A line on which `json.loads` raises. -/
  | malformed : Line
  /-- A line parsing to a well-formed record. -/
  | record (r : PRec) : Line
  deriving DecidableEq, Repr

/-- The well-formed records of a file, in file order. -/
def fileRecords (lines : List Line) : List PRec :=
  lines.filterMap fun l => match l with
    | Line.record r => some r
    | _ => none

/-- The NASDAQ-100 symbol list `all_nasdaq_100_symbols`
(price_tools.py lines 16-28). -/
def allNasdaq100Symbols : List String := [
  "NVDA", "MSFT", "AAPL", "GOOG", "GOOGL", "AMZN", "META", "AVGO", "TSLA",
  "NFLX", "PLTR", "COST", "ASML", "AMD", "CSCO", "AZN", "TMUS", "MU", "LIN",
  "PEP", "SHOP", "APP", "INTU", "AMAT", "LRCX", "PDD", "QCOM", "ARM", "INTC",
  "BKNG", "AMGN", "TXN", "ISRG", "GILD", "KLAC", "PANW", "ADBE", "HON",
  "CRWD", "CEG", "ADI", "ADP", "DASH", "CMCSA", "VRTX", "MELI", "SBUX",
  "CDNS", "ORLY", "SNPS", "MSTR", "MDLZ", "ABNB", "MRVL", "CTAS", "TRI",
  "MAR", "MNST", "CSX", "ADSK", "PYPL", "FTNT", "AEP", "WDAY", "REGN", "ROP",
  "NXPI", "DDOG", "AXON", "ROST", "IDXX", "EA", "PCAR", "FAST", "EXC", "TTWO",
  "XEL", "ZS", "PAYX", "WBD", "BKR", "CPRT", "CCEP", "FANG", "TEAM", "CHTR",
  "KDP", "MCHP", "GEHC", "VRSK", "CTSH", "CSGP", "KHC", "ODFL", "DXCM", "TTD",
  "ON", "BIIB", "LULU", "CDW", "GFS"]

/-! ## `get_latest_position` (price_tools.py lines 353-414) -/

/-- One pass of the scan loop of `get_latest_position`: keep the positions of
the record dated `d` with the largest `id` seen so far (`doc.get("id", -1)`,
`if current_id > max_id`), starting from `({}, -1)`. Blank and unparsable
lines are skipped (`if not line.strip(): continue` / `except: continue`). -/
def scanStep (d : String) (acc : Positions × Int) (l : Line) : Positions × Int :=
  match l with
  | Line.record r => if r.date == d then (if acc.2 < r.id then (r.positions, r.id) else acc) else acc
  | _ => acc

/-- The full scan of a ledger file for records dated `d`. -/
def scanFor (lines : List Line) (d : String) : Positions × Int :=
  lines.foldl (scanStep d) ([], -1)

/-- Model of `get_latest_position(today_date, modelname)`: positions and id of the
max-id record dated `today_date`; if that date has no record with id ≥ 0,
rescan for `get_yesterday_date(today_date)`. `none` models the `ValueError`
raised by `strptime` inside `get_yesterday_date` on a malformed `today_date`
(only reached when the first scan found nothing). -/
def getLatestPosition (lines : List Line) (today : String) : Option (Positions × Int) :=
  let scannedToday := scanFor lines today
  if 0 ≤ scannedToday.2 then some scannedToday
  else (getYesterdayDate today).map fun prev => scanFor lines prev

/-! ## `add_no_trade_record` (price_tools.py lines 416-439) -/

/-- The constant `this_action` written by `add_no_trade_record`:
`{"action": "no_trade", "symbol": "", "amount": 0}`. -/
def noTradeAction : TAction := ⟨"no_trade", "", 0⟩

/-- Model of `add_no_trade_record(today_date, modelname)`: fetch
`get_latest_position(today_date)`, then append one record dated `today_date`
with id one more than the fetched id and the fetched positions unchanged. The
result is the ledger file content after the append. -/
def addNoTradeRecord (lines : List Line) (today : String) : Option (List Line) :=
  (getLatestPosition lines today).map fun pi =>
    lines ++ [Line.record ⟨today, pi.2 + 1, pi.1, noTradeAction⟩]

/-! ## `get_today_init_position` (price_tools.py lines 224-351) -/

/-- Strict less-than on the Python sort key
`(x.get("date", ""), x.get("id", -1))` used at price_tools.py line 280. -/
def recKeyLt (a b : PRec) : Bool :=
  if a.date < b.date then true
  else if a.date = b.date then decide (a.id < b.id)
  else false

/-- Model of `all_records.sort(...); earliest_record = all_records[0]`: the first
record (in file order) whose sort key is minimal — exactly the head of the
stable ascending sort the code performs. -/
def earliestRecord (r : PRec) (rs : List PRec) : PRec :=
  rs.foldl (fun best x => bif recKeyLt x best then x else best) r

/-- The snapshot `{symbol: 0 for symbol in stock_symbols}` followed by
the CASH assignment `init_position[...] = initial_cash` (price_tools.py
lines 322-323). -/
def buildInitPosition (syms : List String) (cash : Int) : Positions :=
  Positions.set (syms.map fun s => (s, (0 : Int))) "CASH" cash

/-- The `stock_symbols` list of the pre-ledger synthesis (price_tools.py
lines 302-306): the earliest record's keys without CASH, or the full default
symbol list when the earliest record shows no stock keys. -/
def stockSymsOf (ep : Positions) : List String :=
  let stockSyms := (Positions.keys ep).filter (fun s => s ≠ "CASH")
  if stockSyms = [] then allNasdaq100Symbols else stockSyms

/-- The pre-ledger synthesis block of `get_today_init_position`
(price_tools.py lines 299-332), reached when `today_date` is earlier than the
earliest record's date and there is no usable id-0 record. -/
def preLedgerSynthesis (earliest : PRec) : Positions :=
  let ep := earliest.positions
  if ep ≠ [] then
    let stockSyms := stockSymsOf ep
    let hasPositions := stockSyms.any fun s => 0 < Positions.get ep s 0
    let initialCash : Int := if hasPositions then 10000 else Positions.get ep "CASH" 10000
    buildInitPosition stockSyms initialCash
  else
    buildInitPosition allNasdaq100Symbols 10000

/-- The `except` branch of `get_today_init_position` (price_tools.py lines
339-349), reached when `strptime(earliest_date)` raises: id-0 record's
positions if non-empty, else the earliest record's positions if non-empty,
else fall through to `return {}`. -/
def dateParseFallback (initialRecord : Option PRec) (earliest : PRec) : Positions :=
  match initialRecord with
  | some ir =>
      if ir.positions ≠ [] then ir.positions
      else if earliest.positions ≠ [] then earliest.positions else []
  | none => if earliest.positions ≠ [] then earliest.positions else []

/-- Model of `get_today_init_position(today_date, modelname)`. `none` models the
`ValueError` raised by `get_yesterday_date` (line 244) on a malformed
`today_date`; an empty file is the empty line list. The scan collects
`all_records` (the parsed records in file order) and the max-id record dated
`get_yesterday_date(today_date)`; the fallback ladder then follows
price_tools.py lines 266-351. -/
def getTodayInitPosition (lines : List Line) (today : String) : Option Positions :=
  match parseDate today with
  | none => none
  | some td =>
    let yd := formatZ (skipWeekendBack 7 (td.toZ - 1))
    let latestPositions := (scanFor lines yd).1
    if latestPositions ≠ [] then some latestPositions
    else
      match fileRecords lines with
      | [] => some []
      | r :: rs =>
        let initialRecord := (r :: rs).find? fun x => x.id == 0
        let earliest := earliestRecord r rs
        match parseDate earliest.date with
        | none => some (dateParseFallback initialRecord earliest)
        | some ed =>
          if td.toZ < ed.toZ then
            match initialRecord with
            | some ir =>
                if ir.positions ≠ [] then some ir.positions
                else some (preLedgerSynthesis earliest)
            | none => some (preLedgerSynthesis earliest)
          else
            if earliest.positions ≠ [] then some earliest.positions else some []

/-! ## The already-processed check of `LiveAgent_Hour.get_trading_dates`
(live_agent_hour.py lines 81-90) -/

/-- The position-file scan of `LiveAgent_Hour.get_trading_dates`: for each
line, `doc = json.loads(line)` **unguarded** — a line that fails to parse
raises and aborts the whole call (`none`); a record dated `current_hour`
short-circuits to `[]`; otherwise the call returns `[current_hour]`. A
whitespace-only line also makes `json.loads` raise, as there is no
`line.strip()` guard here. -/
def getTradingDatesScan (lines : List Line) (currentHour : String) : Option (List String) :=
  match lines with
  | [] => some [currentHour]
  | Line.record r :: rest =>
      if r.date == currentHour then some []
      else getTradingDatesScan rest currentHour
  | Line.blank :: _ => none
  | Line.malformed :: _ => none

/-! ## Trading calendar (trading_calendar.py) -/

/-- A time of day, as Python `datetime.time`: hour, minute, second,
microsecond. -/
structure Tod where
  hour : Nat
  minute : Nat
  second : Nat
  micro : Nat
  deriving DecidableEq, Repr

/-- Microseconds since midnight; Python compares `time` values field by field
lexicographically, which for in-range times is this comparison. -/
def Tod.toUs (t : Tod) : Nat :=
  ((t.hour * 60 + t.minute) * 60 + t.second) * 1000000 + t.micro

/-- A `datetime.time` value has its fields in range. -/
def Tod.Valid (t : Tod) : Prop :=
  t.hour ≤ 23 ∧ t.minute ≤ 59 ∧ t.second ≤ 59 ∧ t.micro ≤ 999999

instance (t : Tod) : Decidable t.Valid := by unfold Tod.Valid; infer_instance

/-- The constant `MARKET_OPEN = time(9, 30)` (trading_calendar.py line 20). -/
def marketOpen : Tod := ⟨9, 30, 0, 0⟩

/-- The constant `MARKET_CLOSE = time(16, 0)` (trading_calendar.py line 21). -/
def marketClose : Tod := ⟨16, 0, 0, 0⟩

/-- An aware `datetime` in US/Eastern, as (day count, time of day). -/
structure Instant where
  z : Nat
  tod : Tod
  deriving DecidableEq, Repr

/-- Strict chronological order on instants. -/
def Instant.lt (a b : Instant) : Prop :=
  a.z < b.z ∨ (a.z = b.z ∧ a.tod.toUs < b.tod.toUs)

instance (a b : Instant) : Decidable (Instant.lt a b) := by
  unfold Instant.lt; infer_instance

/-- The holiday set `US_MARKET_HOLIDAYS` (trading_calendar.py lines 25-59). -/
def usMarketHolidays : List String := [
  "2024-01-01", "2024-01-15", "2024-02-19", "2024-03-29", "2024-05-27",
  "2024-06-19", "2024-07-04", "2024-09-02", "2024-11-28", "2024-12-25",
  "2025-01-01", "2025-01-20", "2025-02-17", "2025-04-18", "2025-05-26",
  "2025-06-19", "2025-07-04", "2025-09-01", "2025-11-27", "2025-12-25",
  "2026-01-01", "2026-01-19", "2026-02-16", "2026-04-03", "2026-05-25",
  "2026-06-19", "2026-07-03", "2026-09-07", "2026-11-26", "2026-12-25"]

/-- Model of `is_weekend(dt)`: Saturday (5) or Sunday (6). -/
def isWeekendZ (z : Nat) : Bool := 5 ≤ weekdayZ z

/-- Model of `is_us_holiday(dt)`: `dt.strftime("%Y-%m-%d") in US_MARKET_HOLIDAYS`. -/
def isUsHolidayZ (z : Nat) : Bool := usMarketHolidays.contains (formatZ z)

/-- Model of `is_trading_day(dt)`: not a weekend and not a holiday (depends only on
the calendar date). -/
def isTradingDayZ (z : Nat) : Bool := !isWeekendZ z && !isUsHolidayZ z

/-- Model of `is_market_hours(dt)`: trading day and
`MARKET_OPEN <= dt.time() <= MARKET_CLOSE`. -/
def isMarketHours (i : Instant) : Bool :=
  isTradingDayZ i.z && (marketOpen.toUs ≤ i.tod.toUs && i.tod.toUs ≤ marketClose.toUs)

/-- The `valid_hours = [10, 11, 12, 13, 14, 15, 16]` list of
`is_trading_hour` (trading_calendar.py line 143) — the designated decision
hours of the hourly cadence. -/
def validDecisionHours : List Nat := [10, 11, 12, 13, 14, 15, 16]

/-- The label `dt.strftime("%Y-%m-%d") + f" {dt.hour:02d}:00:00"`. -/
def hourLabel (i : Instant) : String :=
  formatZ i.z ++ " " ++ padNat 2 i.tod.hour ++ ":00:00"

/-- Model of `get_current_trading_hour(dt)` (trading_calendar.py lines 147-169):
`None` outside market hours, `None` during the 9 o'clock opening hour,
otherwise the current hour's label. -/
def getCurrentTradingHour (i : Instant) : Option String :=
  if !isMarketHours i then none
  else if i.tod.hour == 9 then none
  else some (hourLabel i)

/-- The bounded `for _ in range(max_days)` search of `get_next_trading_time`
(trading_calendar.py lines 201-208): first trading day at or after `z`,
within `fuel` days. -/
def searchTradingDay (fuel z : Nat) : Option Nat :=
  match fuel with
  | 0 => none
  | fuel + 1 => if isTradingDayZ z then some z else searchTradingDay fuel (z + 1)

/-- The start date of the day-by-day search of `get_next_trading_time`:
tomorrow when today's session is over or today is not a trading day, else
today (trading_calendar.py lines 194-198). -/
def searchStart (i : Instant) : Nat :=
  if marketClose.toUs ≤ i.tod.toUs ∨ isTradingDayZ i.z = false then i.z + 1 else i.z

/-- Model of `get_next_trading_time(dt)` (trading_calendar.py lines 172-212). In the
in-session branch the code computes `dt.replace(hour=dt.hour+1, ...)`, with a
redundant special case rewriting hour 9 to hour 10 (the same value); both are
the single top-of-next-hour instant here. -/
def getNextTradingTime (i : Instant) : Instant × String :=
  if isMarketHours i ∧ i.tod.hour < 16 then
    let nextHour : Instant := ⟨i.z, ⟨i.tod.hour + 1, 0, 0, 0⟩⟩
    (nextHour, hourLabel nextHour)
  else
    match searchTradingDay 10 (searchStart i) with
    | some z => let nt : Instant := ⟨z, ⟨10, 0, 0, 0⟩⟩; (nt, hourLabel nt)
    | none => let fb : Instant := ⟨i.z + 7, i.tod⟩; (fb, hourLabel fb)

/-! ## Spec-side definitions (written from the specification's words, for
refinement comparisons against the source-derived functions above) -/

/-- The records of the ledger dated `d`, in file order. -/
def recsOn (lines : List Line) (d : String) : List PRec :=
  (fileRecords lines).filter fun r => r.date == d

/-- The spec's "the record with the highest id" of a record list, as
positions-and-id: `([], -1)` for the empty list (the "no record" sentinel). -/
def pickLatest (rs : List PRec) : Positions × Int :=
  match rs with
  | [] => ([], -1)
  | r :: t =>
      let best := t.foldl (fun b x => if b.id < x.id then x else b) r
      (best.positions, best.id)

/-- The highest id among the records dated `d` (`-1` when there are none). -/
def maxIdOn (lines : List Line) (d : String) : Int :=
  (recsOn lines d).foldl (fun m r => max m r.id) (-1)

/-- Modelled from the amended specification's words: `latest_as_of` returns
the positions and id of the max-id record dated `d`; when `d` has no record
it falls back to the weekday-adjusted previous date, and only when that date
also has no record does it return the `([], -1)` sentinel (`none` models the
exception on an unparsable `d`, which is only reached in the fallback). -/
def latestAsOfSpec (lines : List Line) (d : String) : Option (Positions × Int) :=
  if recsOn lines d ≠ [] then some (pickLatest (recsOn lines d))
  else (getYesterdayDate d).map fun yd => pickLatest (recsOn lines yd)

/-- A ledger file stripped of its blank and unparsable lines. -/
def wellFormedOnly (lines : List Line) : List Line :=
  lines.filter fun l => match l with
    | Line.record _ => true
    | _ => false

/-! ## Concrete inputs used by counterexamples and witnesses -/

/-- Ledger with a single record on an old date with id 5. -/
def c1Ledger : List Line :=
  [Line.record ⟨"2024-01-02", 5, [("AAPL", 3), ("CASH", 100)], noTradeAction⟩]

/-- Ledger whose earliest (and only) record has id 0 and non-zero stock
holdings. -/
def c2Ledger : List Line :=
  [Line.record ⟨"2024-03-01", 0, [("AAPL", 5), ("CASH", 100)], noTradeAction⟩]

/-- Ledger with a record only on 2024-02-29 (= `get_yesterday_date` of
2024-03-01). -/
def c3Ledger : List Line :=
  [Line.record ⟨"2024-02-29", 2, [("CASH", 7)], noTradeAction⟩]

/-- Ledger with ids 0, 2, 5 on one date, with distinct positions. -/
def c3bLedger : List Line :=
  [Line.record ⟨"2024-03-01", 0, [("CASH", 1)], noTradeAction⟩,
   Line.record ⟨"2024-03-01", 2, [("CASH", 2)], noTradeAction⟩,
   Line.record ⟨"2024-03-01", 5, [("CASH", 5)], noTradeAction⟩]

/-- Ledger whose earliest (and only) record has id 0, no stocks, CASH 10000
(the spec's pre-ledger synthesis example). -/
def c9Ledger : List Line :=
  [Line.record ⟨"2024-03-01", 0, [("CASH", 10000)], noTradeAction⟩]

/-- Ledger whose earliest (and only) record has id 3 (no id-0 record) and
non-zero stock holdings. -/
def c2SynthLedger : List Line :=
  [Line.record ⟨"2024-03-01", 3, [("AAPL", 5), ("CASH", 100)], noTradeAction⟩]

/-- Day count of 2025-01-02, a Thursday that is not a market holiday. -/
def tradingThursday : Nat := TDate.toZ ⟨2025, 1, 2⟩

/-! ## Helper lemmas: calendar -/

/-- Unfold `isMarketHours` into its three propositional conjuncts. -/
theorem isMarketHours_iff (i : Instant) :
    isMarketHours i = true ↔
      isTradingDayZ i.z = true ∧ marketOpen.toUs ≤ i.tod.toUs ∧ i.tod.toUs ≤ marketClose.toUs := by
  simp [isMarketHours, Bool.and_eq_true, decide_eq_true_eq, and_assoc]

/-- During market hours, a valid time's hour lies between 9 and 16. -/
theorem hour_bounds_of_marketHours {i : Instant} (hv : i.tod.Valid)
    (hm : isMarketHours i = true) : 9 ≤ i.tod.hour ∧ i.tod.hour ≤ 16 := by
  obtain ⟨h1, h2, h3, h4⟩ := hv
  obtain ⟨-, hlo, hhi⟩ := (isMarketHours_iff i).mp hm
  simp only [Tod.toUs, marketOpen, marketClose] at hlo hhi
  omega

/-! ## Claim C5: session boundary -/

/-- C5: `is_market_hours` returns true iff the instant's date is a trading
day and `MARKET_OPEN ≤ instant.time() ≤ MARKET_CLOSE`; on any trading day it
is false at 09:29:59, true at 09:30:00, true at 16:00:00, false at
16:00:01. -/
theorem c5_session_boundary :
    (∀ i : Instant, isMarketHours i = true ↔
       isTradingDayZ i.z = true ∧
         marketOpen.toUs ≤ i.tod.toUs ∧ i.tod.toUs ≤ marketClose.toUs) ∧
    (∀ z : Nat, isTradingDayZ z = true →
       isMarketHours ⟨z, ⟨9, 29, 59, 0⟩⟩ = false ∧
       isMarketHours ⟨z, ⟨9, 30, 0, 0⟩⟩ = true ∧
       isMarketHours ⟨z, ⟨16, 0, 0, 0⟩⟩ = true ∧
       isMarketHours ⟨z, ⟨16, 0, 1, 0⟩⟩ = false) := by
  refine ⟨isMarketHours_iff, fun z h => ⟨?_, ?_, ?_, ?_⟩⟩
  · refine Bool.eq_false_iff.mpr fun hm => ?_
    obtain ⟨-, hlo, -⟩ := (isMarketHours_iff _).mp hm
    exact absurd hlo (by decide : ¬ marketOpen.toUs ≤ (Tod.mk 9 29 59 0).toUs)
  · exact (isMarketHours_iff _).mpr ⟨h,
      (by decide : marketOpen.toUs ≤ (Tod.mk 9 30 0 0).toUs),
      (by decide : (Tod.mk 9 30 0 0).toUs ≤ marketClose.toUs)⟩
  · exact (isMarketHours_iff _).mpr ⟨h,
      (by decide : marketOpen.toUs ≤ (Tod.mk 16 0 0 0).toUs),
      (by decide : (Tod.mk 16 0 0 0).toUs ≤ marketClose.toUs)⟩
  · refine Bool.eq_false_iff.mpr fun hm => ?_
    obtain ⟨-, -, hhi⟩ := (isMarketHours_iff _).mp hm
    exact absurd hhi (by decide : ¬ (Tod.mk 16 0 1 0).toUs ≤ marketClose.toUs)

/-- Witness for C5 at the concrete trading day 2025-01-02. -/
theorem c5_session_boundary_witness :
    isTradingDayZ tradingThursday = true ∧
      isMarketHours ⟨tradingThursday, ⟨9, 29, 59, 0⟩⟩ = false ∧
      isMarketHours ⟨tradingThursday, ⟨9, 30, 0, 0⟩⟩ = true := by
  have h : isTradingDayZ tradingThursday = true := by decide
  have hb := c5_session_boundary.2 tradingThursday h
  exact ⟨h, hb.1, hb.2.1⟩

/-! ## Claim C6: decision-hour exclusion -/

/-- Membership in the designated decision hours is the interval 10..16. -/
theorem mem_validDecisionHours (h : Nat) :
    h ∈ validDecisionHours ↔ 10 ≤ h ∧ h ≤ 16 := by
  constructor
  · intro hh
    simp only [validDecisionHours, List.mem_cons, List.not_mem_nil, or_false] at hh
    omega
  · intro hh
    simp only [validDecisionHours, List.mem_cons, List.not_mem_nil, or_false]
    omega

/-- During market hours outside the 9 o'clock
hour returns the current hour's label. -/
theorem getCurrentTradingHour_some {i : Instant} (hm : isMarketHours i = true)
    (h9 : i.tod.hour ≠ 9) : getCurrentTradingHour i = some (hourLabel i) := by
  unfold getCurrentTradingHour
  rw [hm]
  simp [h9]

/-- During the 9 o'clock hour `get_current_trading_hour` returns `none`. -/
theorem getCurrentTradingHour_none_of_hour9 {i : Instant} (h9 : i.tod.hour = 9) :
    getCurrentTradingHour i = none := by
  unfold getCurrentTradingHour
  by_cases hm : isMarketHours i <;> simp [hm, h9]

/-- Outside market hours `get_current_trading_hour` returns `none`. -/
theorem getCurrentTradingHour_none_of_closed {i : Instant}
    (hm : isMarketHours i = false) : getCurrentTradingHour i = none := by
  unfold getCurrentTradingHour
  simp [hm]

/-- The hour label at the top of an hour, regrouped. -/
theorem hourLabel_ten (z : Nat) :
    hourLabel ⟨z, ⟨10, 0, 0, 0⟩⟩ = formatZ z ++ " 10:00:00" := by
  show formatZ z ++ " " ++ padNat 2 10 ++ ":00:00" = formatZ z ++ " 10:00:00"
  rw [String.append_assoc, String.append_assoc]
  congr 1

/-- C6: `get_current_trading_hour` returns `None` unless the instant is in
session with its hour a designated decision hour (the open hour 9 being
excluded); otherwise it returns the label `"{date} {hour}:00:00"`. On a
trading day: 09:45 gives `None` and 10:00 gives `"{date} 10:00:00"`. -/
theorem c6_decision_hour_exclusion :
    (∀ i : Instant, i.tod.Valid →
       ((getCurrentTradingHour i = none ↔
           ¬(isMarketHours i = true ∧ i.tod.hour ∈ validDecisionHours)) ∧
        (isMarketHours i = true → i.tod.hour ∈ validDecisionHours →
           getCurrentTradingHour i = some (hourLabel i)))) ∧
    (∀ z : Nat, isTradingDayZ z = true →
       getCurrentTradingHour ⟨z, ⟨9, 45, 0, 0⟩⟩ = none ∧
       getCurrentTradingHour ⟨z, ⟨10, 0, 0, 0⟩⟩ = some (formatZ z ++ " 10:00:00")) := by
  constructor
  · intro i hv
    have hmain : getCurrentTradingHour i = none ↔
        ¬(isMarketHours i = true ∧ i.tod.hour ∈ validDecisionHours) := by
      cases hm : isMarketHours i with
      | false =>
          rw [getCurrentTradingHour_none_of_closed hm]
          simp
      | true =>
          by_cases h9 : i.tod.hour = 9
          · rw [getCurrentTradingHour_none_of_hour9 h9]
            simp only [true_iff, h9, hm, true_and, mem_validDecisionHours]
            omega
          · rw [getCurrentTradingHour_some hm h9]
            have hb := hour_bounds_of_marketHours hv hm
            simp only [reduceCtorEq, false_iff, not_not, hm, true_and,
              mem_validDecisionHours]
            omega
    exact ⟨hmain, fun hm _ => getCurrentTradingHour_some hm (by
      intro h9
      have := hmain.mp (getCurrentTradingHour_none_of_hour9 h9)
      exact this ⟨hm, by assumption⟩)⟩
  · intro z h
    constructor
    · exact getCurrentTradingHour_none_of_hour9 rfl
    · have hm : isMarketHours ⟨z, ⟨10, 0, 0, 0⟩⟩ = true :=
        (isMarketHours_iff _).mpr ⟨h,
          (by decide : marketOpen.toUs ≤ (Tod.mk 10 0 0 0).toUs),
          (by decide : (Tod.mk 10 0 0 0).toUs ≤ marketClose.toUs)⟩
      rw [getCurrentTradingHour_some hm (by decide : (10 : Nat) ≠ 9), hourLabel_ten]

/-- Witness for C6 at the concrete trading day 2025-01-02, 11:00. -/
theorem c6_decision_hour_exclusion_witness :
    Tod.Valid ⟨11, 0, 0, 0⟩ ∧ isMarketHours ⟨tradingThursday, ⟨11, 0, 0, 0⟩⟩ = true ∧
      (11 : Nat) ∈ validDecisionHours ∧
      getCurrentTradingHour ⟨tradingThursday, ⟨11, 0, 0, 0⟩⟩ =
        some (hourLabel ⟨tradingThursday, ⟨11, 0, 0, 0⟩⟩) := by
  refine ⟨by decide, by decide, by decide, ?_⟩
  exact (c6_decision_hour_exclusion.1 ⟨tradingThursday, ⟨11, 0, 0, 0⟩⟩ (by decide)).2
    (by decide) (by decide)

/-! ## Helper lemmas: the bounded day-by-day search -/

/-- The bounded search finds the first trading day in range. -/
theorem searchTradingDay_found :
    ∀ (fuel s k : Nat), k < fuel → isTradingDayZ (s + k) = true →
      (∀ j, j < k → isTradingDayZ (s + j) = false) →
      searchTradingDay fuel s = some (s + k) := by
  intro fuel
  induction fuel with
  | zero => intro s k hk; omega
  | succ n ih =>
      intro s k hk htrade hmin
      cases k with
      | zero =>
          simp only [Nat.add_zero] at htrade
          rw [searchTradingDay, htrade]
          simp
      | succ k' =>
          have hs : isTradingDayZ s = false := by
            have := hmin 0 (by omega)
            simpa using this
          have step := ih (s + 1) k' (by omega)
            (by rw [show s + 1 + k' = s + (k' + 1) by omega]; exact htrade)
            (fun j hj => by
              rw [show s + 1 + j = s + (j + 1) by omega]
              exact hmin (j + 1) (by omega))
          rw [searchTradingDay, hs]
          simpa [show s + 1 + k' = s + (k' + 1) by omega] using step

/-- The bounded search fails when no day in range is a trading day. -/
theorem searchTradingDay_none :
    ∀ (fuel s : Nat), (∀ k, k < fuel → isTradingDayZ (s + k) = false) →
      searchTradingDay fuel s = none := by
  intro fuel
  induction fuel with
  | zero => intro s _; rfl
  | succ n ih =>
      intro s hall
      have hs : isTradingDayZ s = false := by simpa using hall 0 (by omega)
      rw [searchTradingDay, hs]
      simp only [Bool.false_eq_true, if_false]
      exact ih (s + 1) fun k hk => by
        rw [show s + 1 + k = s + (k + 1) by omega]
        exact hall (k + 1) (by omega)

/-- A successful bounded search never goes backwards. -/
theorem searchTradingDay_le :
    ∀ (fuel s z : Nat), searchTradingDay fuel s = some z → s ≤ z := by
  intro fuel
  induction fuel with
  | zero => intro s z h; simp [searchTradingDay] at h
  | succ n ih =>
      intro s z h
      rw [searchTradingDay] at h
      by_cases hs : isTradingDayZ s = true
      · rw [hs] at h
        simp at h
        omega
      · rw [Bool.not_eq_true] at hs
        rw [hs] at h
        simp only [Bool.false_eq_true, if_false] at h
        have := ih (s + 1) z h
        omega

/-! ## Claim C7: next decision instant -/

/-- C7: in-session before the last decision hour, `get_next_trading_time`
returns the top of the next hour; otherwise it searches day by day from
`searchStart` (bounded by 10 days) and returns the first trading day found at
10:00 with its label, falling back to the input plus 7 days when no trading
day lies within the bound. -/
theorem c7_next_decision_instant :
    ∀ i : Instant,
      ((isMarketHours i = true ∧ i.tod.hour < 16) →
         getNextTradingTime i =
           (⟨i.z, ⟨i.tod.hour + 1, 0, 0, 0⟩⟩, hourLabel ⟨i.z, ⟨i.tod.hour + 1, 0, 0, 0⟩⟩)) ∧
      (¬(isMarketHours i = true ∧ i.tod.hour < 16) →
         (∀ k, k < 10 → isTradingDayZ (searchStart i + k) = true →
            (∀ j, j < k → isTradingDayZ (searchStart i + j) = false) →
            getNextTradingTime i =
              (⟨searchStart i + k, ⟨10, 0, 0, 0⟩⟩, formatZ (searchStart i + k) ++ " 10:00:00")) ∧
         ((∀ k, k < 10 → isTradingDayZ (searchStart i + k) = false) →
            getNextTradingTime i = (⟨i.z + 7, i.tod⟩, hourLabel ⟨i.z + 7, i.tod⟩))) := by
  intro i
  constructor
  · intro h
    unfold getNextTradingTime
    rw [if_pos h]
  · intro h
    constructor
    · intro k hk ht hmin
      have hfound := searchTradingDay_found 10 (searchStart i) k hk ht hmin
      unfold getNextTradingTime
      rw [if_neg h, hfound]
      show ((⟨searchStart i + k, ⟨10, 0, 0, 0⟩⟩ : Instant),
          hourLabel ⟨searchStart i + k, ⟨10, 0, 0, 0⟩⟩) =
        (⟨searchStart i + k, ⟨10, 0, 0, 0⟩⟩, formatZ (searchStart i + k) ++ " 10:00:00")
      rw [hourLabel_ten]
    · intro hall
      have hnone := searchTradingDay_none 10 (searchStart i) hall
      unfold getNextTradingTime
      rw [if_neg h, hnone]

/-- Witness for C7: a concrete in-session instant (2025-01-02 13:45). -/
theorem c7_next_decision_instant_witness :
    getNextTradingTime ⟨tradingThursday, ⟨13, 45, 0, 0⟩⟩ =
      (⟨tradingThursday, ⟨14, 0, 0, 0⟩⟩, hourLabel ⟨tradingThursday, ⟨14, 0, 0, 0⟩⟩) :=
  (c7_next_decision_instant ⟨tradingThursday, ⟨13, 45, 0, 0⟩⟩).1 ⟨by decide, by decide⟩

/-! ## Claim C10: the next trading time is strictly later -/

/-- C10: for every instant (with an in-range time of day, as every Python
`datetime` has), the timestamp `get_next_trading_time` returns is strictly
later than the input, in the next-hour case, the bounded-search case and the
one-week fallback case alike. -/
theorem c10_strictly_later :
    ∀ i : Instant, i.tod.Valid → Instant.lt i (getNextTradingTime i).1 := by
  intro i hv
  obtain ⟨hh, hmn, hs, hus⟩ := hv
  unfold getNextTradingTime
  by_cases h : (isMarketHours i = true ∧ i.tod.hour < 16)
  · rw [if_pos h]
    refine Or.inr ⟨rfl, ?_⟩
    show i.tod.toUs < (Tod.mk (i.tod.hour + 1) 0 0 0).toUs
    simp only [Tod.toUs]
    omega
  · rw [if_neg h]
    cases hsearch : searchTradingDay 10 (searchStart i) with
    | none =>
        show Instant.lt i ⟨i.z + 7, i.tod⟩
        exact Or.inl (show i.z < i.z + 7 by omega)
    | some z =>
        have hz := searchTradingDay_le 10 (searchStart i) z hsearch
        show Instant.lt i ⟨z, ⟨10, 0, 0, 0⟩⟩
        unfold searchStart at hz
        by_cases hc : (marketClose.toUs ≤ i.tod.toUs ∨ isTradingDayZ i.z = false)
        · rw [if_pos hc] at hz
          exact Or.inl (show i.z < z by omega)
        · rw [if_neg hc] at hz
          have hclose : ¬ marketClose.toUs ≤ i.tod.toUs := fun ha => hc (Or.inl ha)
          have htrade : isTradingDayZ i.z = true := by
            cases hb : isTradingDayZ i.z with
            | false => exact absurd (Or.inr hb) hc
            | true => rfl
          rcases Nat.lt_or_ge i.z z with hlt | hge
          · exact Or.inl hlt
          · have hzz : i.z = z := by omega
            refine Or.inr ⟨hzz, ?_⟩
            show i.tod.toUs < (Tod.mk 10 0 0 0).toUs
            have hnoth : ¬ (marketOpen.toUs ≤ i.tod.toUs) ∨ 16 ≤ i.tod.hour := by
              by_contra hcon
              push_neg at hcon
              exact h ⟨(isMarketHours_iff i).mpr
                ⟨htrade, hcon.1, le_of_not_le hclose⟩, by omega⟩
            simp only [Tod.toUs, marketOpen, marketClose] at hclose hnoth ⊢
            omega

/-- Witness for C10 at a concrete after-close instant. -/
theorem c10_strictly_later_witness :
    Instant.lt ⟨tradingThursday, ⟨18, 30, 0, 0⟩⟩
      (getNextTradingTime ⟨tradingThursday, ⟨18, 30, 0, 0⟩⟩).1 :=
  c10_strictly_later ⟨tradingThursday, ⟨18, 30, 0, 0⟩⟩ (by decide)

/-! ## Helper lemmas: ledger scans -/

/-- The scan accumulator's id component never drops below its start. -/
theorem scanFor_foldl_ge (d : String) :
    ∀ (lines : List Line) (acc : Positions × Int),
      acc.2 ≤ (lines.foldl (scanStep d) acc).2 := by
  intro lines
  induction lines with
  | nil => intro acc; exact le_refl _
  | cons l rest ih =>
      intro acc
      refine le_trans ?_ (ih (scanStep d acc l))
      cases l with
      | blank => exact le_refl _
      | malformed => exact le_refl _
      | record r =>
          simp only [scanStep]
          by_cases hd : (r.date == d) = true
          · rw [if_pos hd]
            by_cases hid : acc.2 < r.id
            · rw [if_pos hid]; exact le_of_lt hid
            · rw [if_neg hid]
          · rw [if_neg hd]

/-- The scan's id result is at least the `-1` sentinel. -/
theorem scanFor_snd_ge (lines : List Line) (d : String) :
    -1 ≤ (scanFor lines d).2 :=
  scanFor_foldl_ge d lines ([], -1)

/-- Scanning a file with one record appended performs one more step. -/
theorem scanFor_append_record (lines : List Line) (r : PRec) (d : String) :
    scanFor (lines ++ [Line.record r]) d =
      scanStep d (scanFor lines d) (Line.record r) := by
  unfold scanFor
  rw [List.foldl_append]
  rfl

/-- The scan over the file equals the max-id fold over the records dated
`d`. -/
theorem scanFor_eq_foldl_recsOn (lines : List Line) (d : String) :
    scanFor lines d =
      (recsOn lines d).foldl
        (fun acc r => if acc.2 < r.id then (r.positions, r.id) else acc) ([], -1) := by
  suffices haux : ∀ (ls : List Line) (acc : Positions × Int),
      ls.foldl (scanStep d) acc =
        ((fileRecords ls).filter (fun r => r.date == d)).foldl
          (fun acc r => if acc.2 < r.id then (r.positions, r.id) else acc) acc by
    exact haux lines ([], -1)
  intro ls
  induction ls with
  | nil => intro acc; rfl
  | cons l rest ih =>
      intro acc
      cases l with
      | blank => exact ih acc
      | malformed => exact ih acc
      | record r =>
          simp only [List.foldl_cons, fileRecords, List.filterMap_cons]
          by_cases hd : (r.date == d) = true
          · simp only [scanStep, hd, if_true, List.filter_cons, List.foldl_cons]
            exact ih _
          · simp only [scanStep, hd, if_false, Bool.false_eq_true, List.filter_cons]
            exact ih acc

/-- The pairwise max-id fold over records computes the best record's
positions and id. -/
theorem foldl_pair_eq_foldl_rec (t : List PRec) :
    ∀ r : PRec,
      t.foldl (fun acc x => if acc.2 < x.id then (x.positions, x.id) else acc)
        (r.positions, r.id) =
      ((t.foldl (fun b x => if b.id < x.id then x else b) r).positions,
       (t.foldl (fun b x => if b.id < x.id then x else b) r).id) := by
  induction t with
  | nil => intro r; rfl
  | cons x t' ih =>
      intro r
      simp only [List.foldl_cons]
      by_cases hx : r.id < x.id
      · rw [if_pos hx, if_pos hx]
        exact ih x
      · rw [if_neg hx, if_neg hx]
        exact ih r

/-- With non-negative ids, the source scan fold equals the spec's
`pickLatest`. -/
theorem foldl_eq_pickLatest (rs : List PRec) (h : ∀ r ∈ rs, 0 ≤ r.id) :
    rs.foldl (fun acc r => if acc.2 < r.id then (r.positions, r.id) else acc)
      ([], -1) = pickLatest rs := by
  cases rs with
  | nil => rfl
  | cons r t =>
      have hr : (0 : Int) ≤ r.id := h r (List.mem_cons_self r t)
      simp only [List.foldl_cons, pickLatest]
      rw [if_pos (by omega : (([], -1) : Positions × Int).2 < r.id)]
      exact foldl_pair_eq_foldl_rec t r

/-- The best record's id dominates the seed's id. -/
theorem foldl_rec_id_ge (t : List PRec) :
    ∀ r : PRec, r.id ≤ (t.foldl (fun b x => if b.id < x.id then x else b) r).id := by
  induction t with
  | nil => intro r; exact le_refl _
  | cons x t' ih =>
      intro r
      simp only [List.foldl_cons]
      by_cases hx : r.id < x.id
      · rw [if_pos hx]
        exact le_trans (le_of_lt hx) (ih x)
      · rw [if_neg hx]
        exact ih r

/-- The best record's id is the fold of `max` over all ids. -/
theorem foldl_rec_id_eq_max (t : List PRec) :
    ∀ r : PRec,
      (t.foldl (fun b x => if b.id < x.id then x else b) r).id =
        t.foldl (fun m x => max m x.id) r.id := by
  induction t with
  | nil => intro r; rfl
  | cons x t' ih =>
      intro r
      simp only [List.foldl_cons]
      by_cases hx : r.id < x.id
      · rw [if_pos hx, ih x, show max r.id x.id = x.id by omega]
      · rw [if_neg hx, ih r, show max r.id x.id = r.id by omega]

/-- With non-negative ids, the source scan equals `pickLatest` of the records
dated `d`. -/
theorem scanFor_eq_pickLatest (lines : List Line) (d : String)
    (h : ∀ r ∈ fileRecords lines, 0 ≤ r.id) :
    scanFor lines d = pickLatest (recsOn lines d) := by
  rw [scanFor_eq_foldl_recsOn]
  exact foldl_eq_pickLatest _ fun r hr => h r (List.mem_filter.mp hr).1

/-! ## Claim C4: no-trade round trip -/

/-- C4: when `add_no_trade_record` succeeds once, a second call for the same
identity and date also succeeds; the two appended records are dated `today`,
carry consecutive ids, identical positions and identical actions — they
differ only in the id. -/
theorem c4_no_trade_round_trip (lines : List Line) (today : String)
    (L1 : List Line) (h1 : addNoTradeRecord lines today = some L1) :
    ∃ (r1 r2 : PRec) (L2 : List Line),
      L1 = lines ++ [Line.record r1] ∧
      addNoTradeRecord L1 today = some L2 ∧
      L2 = L1 ++ [Line.record r2] ∧
      r1.date = today ∧ r2.date = today ∧
      r2.id = r1.id + 1 ∧
      r2.positions = r1.positions ∧
      r2.thisAction = r1.thisAction := by
  unfold addNoTradeRecord at h1
  obtain ⟨pi, hget, hL1⟩ := Option.map_eq_some'.mp h1
  -- The id fetched for the first append is at least the `-1` sentinel, and
  -- strictly larger than every id the first scan saw for `today`.
  have hscan : (scanFor lines today).2 < pi.2 + 1 ∧ -1 ≤ pi.2 := by
    unfold getLatestPosition at hget
    by_cases hpos : (0 : Int) ≤ (scanFor lines today).2
    · rw [if_pos hpos] at hget
      simp only [Option.some.injEq] at hget
      rw [← hget]
      omega
    · rw [if_neg hpos] at hget
      obtain ⟨yd, -, hyd⟩ := Option.map_eq_some'.mp hget
      have hge := scanFor_snd_ge lines yd
      rw [hyd] at hge
      omega
  refine ⟨⟨today, pi.2 + 1, pi.1, noTradeAction⟩,
          ⟨today, pi.2 + 1 + 1, pi.1, noTradeAction⟩,
          L1 ++ [Line.record ⟨today, pi.2 + 1 + 1, pi.1, noTradeAction⟩],
          hL1.symm, ?_, rfl, rfl, rfl, rfl, rfl, rfl⟩
  -- The second call scans `today` again and now finds the appended record.
  have hscan2 : scanFor L1 today = (pi.1, pi.2 + 1) := by
    rw [← hL1, scanFor_append_record]
    simp only [scanStep, beq_self_eq_true, if_true]
    rw [if_pos hscan.1]
  unfold addNoTradeRecord getLatestPosition
  rw [hscan2]
  rw [if_pos (by omega : (0 : Int) ≤ ((pi.1, pi.2 + 1) : Positions × Int).2)]
  simp only [Option.map_some']

/-- Witness for C4 on an initially empty ledger at 2025-01-02. -/
theorem c4_no_trade_round_trip_witness :
    ∃ (r1 r2 : PRec) (L2 : List Line),
      ([Line.record ⟨"2025-01-02", 0, [], noTradeAction⟩] : List Line) =
        [] ++ [Line.record r1] ∧
      addNoTradeRecord [Line.record ⟨"2025-01-02", 0, [], noTradeAction⟩]
        "2025-01-02" = some L2 ∧
      L2 = [Line.record ⟨"2025-01-02", 0, [], noTradeAction⟩] ++ [Line.record r2] ∧
      r1.date = "2025-01-02" ∧ r2.date = "2025-01-02" ∧
      r2.id = r1.id + 1 ∧
      r2.positions = r1.positions ∧
      r2.thisAction = r1.thisAction :=
  c4_no_trade_round_trip [] "2025-01-02"
    [Line.record ⟨"2025-01-02", 0, [], noTradeAction⟩] (by decide)

/-! ## Claim C3: latest-as-of -/

/-- C3 counterexample: the ledger has no record dated "2024-03-01", yet
`get_latest_position` does not return the `({}, -1)` sentinel — it falls back
to the previous date 2024-02-29 and returns that record. -/
theorem c3_counterexample :
    (∀ r ∈ fileRecords c3Ledger, r.date ≠ "2024-03-01") ∧
    getLatestPosition c3Ledger "2024-03-01" = some ([("CASH", 7)], 2) ∧
    some ([("CASH", 7)], (2 : Int)) ≠ some (([] : Positions), (-1 : Int)) := by
  refine ⟨by decide, by decide, by decide⟩

/-- C3 (amended): with non-negative ids, `get_latest_position` returns the
max-id record dated `D`; when no record is dated `D` it falls back to the
max-id record dated `get_yesterday_date(D)`, and only when that date also has
no record does it return `({}, -1)` — which is exactly `latestAsOfSpec`. -/
theorem c3_latest_as_of (lines : List Line) (D : String)
    (hid : ∀ r ∈ fileRecords lines, 0 ≤ r.id) :
    getLatestPosition lines D = latestAsOfSpec lines D := by
  simp only [getLatestPosition, latestAsOfSpec]
  rw [scanFor_eq_pickLatest lines D hid]
  cases hrec : recsOn lines D with
  | nil =>
      rw [if_neg (by decide : ¬ (0 : Int) ≤ (pickLatest []).2)]
      rw [if_neg (by simp : ¬ ([] : List PRec) ≠ [])]
      cases hyd : getYesterdayDate D with
      | none => rfl
      | some yd =>
          simp only [Option.map_some']
          rw [scanFor_eq_pickLatest lines yd hid]
  | cons r t =>
      have hrmem : r ∈ fileRecords lines := by
        have : r ∈ recsOn lines D := by rw [hrec]; exact List.mem_cons_self r t
        exact (List.mem_filter.mp this).1
      have h0 : (0 : Int) ≤ (pickLatest (r :: t)).2 := by
        have hr := hid r hrmem
        have hge := foldl_rec_id_ge t r
        simp only [pickLatest]
        omega
      rw [if_pos h0, if_pos (by simp : (r :: t : List PRec) ≠ [])]

/-- Witness for C3's amended claim: the spec's own [0, 2, 5] example — the
max-id record (id 5) is returned, and the spec-side description agrees. -/
theorem c3_latest_as_of_witness :
    (∀ r ∈ fileRecords c3bLedger, 0 ≤ r.id) ∧
    getLatestPosition c3bLedger "2024-03-01" = some ([("CASH", 5)], 5) ∧
    latestAsOfSpec c3bLedger "2024-03-01" = some ([("CASH", 5)], 5) := by
  refine ⟨by decide, ?_, by decide⟩
  rw [c3_latest_as_of c3bLedger "2024-03-01" (by decide)]
  decide

/-! ## Claim C1: next-id computation -/

/-- With non-negative ids, a non-empty record list's best id is
non-negative. -/
theorem pickLatest_snd_nonneg (rs : List PRec) (h : ∀ r ∈ rs, 0 ≤ r.id)
    (hne : rs ≠ []) : 0 ≤ (pickLatest rs).2 := by
  cases rs with
  | nil => exact absurd rfl hne
  | cons r t =>
      have hr := h r (List.mem_cons_self r t)
      have hge := foldl_rec_id_ge t r
      simp only [pickLatest]
      omega

/-- With non-negative ids, a non-empty record list's best id is the fold of
`max` over all ids seeded with `-1`. -/
theorem pickLatest_snd_eq (rs : List PRec) (h : ∀ r ∈ rs, 0 ≤ r.id)
    (hne : rs ≠ []) :
    (pickLatest rs).2 = rs.foldl (fun m x => max m x.id) (-1) := by
  cases rs with
  | nil => exact absurd rfl hne
  | cons r t =>
      have hr := h r (List.mem_cons_self r t)
      simp only [pickLatest, List.foldl_cons]
      rw [foldl_rec_id_eq_max t r, show max (-1 : Int) r.id = r.id by omega]

/-- C1 counterexample: the ledger's only record is dated 2024-01-02 with
id 5 (the maximum id ever seen), yet appending a no-trade record on
2024-03-04 assigns id 0, not 1 + 5: `get_latest_position` only consults
2024-03-04 and its weekday-adjusted previous date 2024-03-01. -/
theorem c1_counterexample :
    addNoTradeRecord c1Ledger "2024-03-04" =
      some (c1Ledger ++ [Line.record ⟨"2024-03-04", 0, [], noTradeAction⟩]) ∧
    (∃ r ∈ fileRecords c1Ledger, r.id = 5) ∧
    (∀ r ∈ fileRecords c1Ledger, r.id ≤ 5) ∧
    (0 : Int) ≠ 5 + 1 := by
  refine ⟨by decide, ⟨⟨"2024-01-02", 5, [("AAPL", 3), ("CASH", 100)], noTradeAction⟩,
    by decide, rfl⟩, by decide, by decide⟩

/-- C1 (amended): the id assigned by `add_no_trade_record(date)` is `m + 1`
where `m` is the maximum id among records dated `date` when that date has
records, else the maximum id among records dated the weekday-adjusted
previous date, else `-1` (so the assigned id is 0) — not the maximum id over
the whole ledger. -/
theorem c1_monotonic_id (lines : List Line) (today : String) (td : TDate)
    (hid : ∀ r ∈ fileRecords lines, 0 ≤ r.id)
    (hp : parseDate today = some td) :
    ∃ (P : Positions) (m : Int),
      addNoTradeRecord lines today =
        some (lines ++ [Line.record ⟨today, m + 1, P, noTradeAction⟩]) ∧
      (recsOn lines today ≠ [] → m = maxIdOn lines today) ∧
      (recsOn lines today = [] →
        recsOn lines (formatZ (skipWeekendBack 7 (td.toZ - 1))) ≠ [] →
        m = maxIdOn lines (formatZ (skipWeekendBack 7 (td.toZ - 1)))) ∧
      (recsOn lines today = [] →
        recsOn lines (formatZ (skipWeekendBack 7 (td.toZ - 1))) = [] →
        m = -1) := by
  have hgyd : getYesterdayDate today =
      some (formatZ (skipWeekendBack 7 (td.toZ - 1))) := by
    unfold getYesterdayDate
    rw [hp]
    rfl
  have hidOn : ∀ d : String, ∀ r ∈ recsOn lines d, 0 ≤ r.id :=
    fun d r hr => hid r (List.mem_filter.mp hr).1
  by_cases h1 : recsOn lines today = []
  · refine ⟨(pickLatest (recsOn lines (formatZ (skipWeekendBack 7 (td.toZ - 1))))).1,
            (pickLatest (recsOn lines (formatZ (skipWeekendBack 7 (td.toZ - 1))))).2,
            ?_, fun hc => absurd h1 hc, ?_, ?_⟩
    · unfold addNoTradeRecord getLatestPosition
      rw [scanFor_eq_pickLatest lines today hid, h1]
      rw [if_neg (by decide : ¬ (0 : Int) ≤ (pickLatest []).2)]
      rw [hgyd]
      simp only [Option.map_some']
      rw [scanFor_eq_pickLatest lines _ hid]
    · intro _ hne
      exact pickLatest_snd_eq _ (hidOn _) hne
    · intro _ h2
      rw [h2]
      rfl
  · refine ⟨(pickLatest (recsOn lines today)).1, (pickLatest (recsOn lines today)).2,
            ?_, ?_, fun hc => absurd hc h1, fun hc => absurd hc h1⟩
    · unfold addNoTradeRecord getLatestPosition
      rw [scanFor_eq_pickLatest lines today hid]
      rw [if_pos (pickLatest_snd_nonneg _ (hidOn today) h1)]
      rfl
    · intro _
      exact pickLatest_snd_eq _ (hidOn today) h1

/-- Witness for C1's amended claim: a ledger with a record dated 2025-01-02
(id 3); appending on that date assigns id 4 = maxIdOn + 1. -/
theorem c1_monotonic_id_witness :
    ∃ (P : Positions) (m : Int),
      addNoTradeRecord [Line.record ⟨"2025-01-02", 3, [("CASH", 9)], noTradeAction⟩]
          "2025-01-02" =
        some ([Line.record ⟨"2025-01-02", 3, [("CASH", 9)], noTradeAction⟩] ++
          [Line.record ⟨"2025-01-02", m + 1, P, noTradeAction⟩]) ∧
      (recsOn [Line.record ⟨"2025-01-02", 3, [("CASH", 9)], noTradeAction⟩]
          "2025-01-02" ≠ [] →
        m = maxIdOn [Line.record ⟨"2025-01-02", 3, [("CASH", 9)], noTradeAction⟩]
          "2025-01-02") ∧
      (recsOn [Line.record ⟨"2025-01-02", 3, [("CASH", 9)], noTradeAction⟩]
          "2025-01-02" = [] →
        recsOn [Line.record ⟨"2025-01-02", 3, [("CASH", 9)], noTradeAction⟩]
          (formatZ (skipWeekendBack 7 ((TDate.mk 2025 1 2).toZ - 1))) ≠ [] →
        m = maxIdOn [Line.record ⟨"2025-01-02", 3, [("CASH", 9)], noTradeAction⟩]
          (formatZ (skipWeekendBack 7 ((TDate.mk 2025 1 2).toZ - 1)))) ∧
      (recsOn [Line.record ⟨"2025-01-02", 3, [("CASH", 9)], noTradeAction⟩]
          "2025-01-02" = [] →
        recsOn [Line.record ⟨"2025-01-02", 3, [("CASH", 9)], noTradeAction⟩]
          (formatZ (skipWeekendBack 7 ((TDate.mk 2025 1 2).toZ - 1))) = [] →
        m = -1) :=
  c1_monotonic_id [Line.record ⟨"2025-01-02", 3, [("CASH", 9)], noTradeAction⟩]
    "2025-01-02" ⟨2025, 1, 2⟩ (by decide) (by decide)

/-! ## Helper lemmas: dict operations -/
theorem lookup_map_replace (k : String) (v : Int) :
    ∀ p : Positions, p.any (fun kv => kv.1 == k) = true →
      List.lookup k (p.map fun kv => bif kv.1 == k then (k, v) else kv) = some v := by
  intro p
  induction p with
  | nil => intro h; simp at h
  | cons kv t ih =>
      obtain ⟨k1, v1⟩ := kv
      intro h
      by_cases hk : k1 = k
      · subst hk
        simp only [List.map_cons, beq_self_eq_true, Bool.cond_true, List.lookup,
          beq_self_eq_true]
      · have hkb : (k1 == k) = false := by simp [hk]
        have hkb2 : (k == k1) = false := by simp [Ne.symm hk]
        simp only [List.any_cons, hkb, Bool.false_or] at h
        simp only [List.map_cons, hkb, Bool.cond_false, List.lookup, hkb2]
        exact ih h

theorem lookup_map_other (k k' : String) (v : Int) (hne : k' ≠ k) :
    ∀ p : Positions,
      List.lookup k' (p.map fun kv => bif kv.1 == k then (k, v) else kv) =
        List.lookup k' p := by
  intro p
  induction p with
  | nil => rfl
  | cons kv t ih =>
      obtain ⟨k1, v1⟩ := kv
      by_cases hk : k1 = k
      · subst hk
        simp only [List.map_cons, beq_self_eq_true, Bool.cond_true, List.lookup,
          show (k' == k1) = false by simp [hne]]
        exact ih
      · have hkb : (k1 == k) = false := by simp [hk]
        simp only [List.map_cons, hkb, Bool.cond_false, List.lookup]
        cases hkk : k' == k1
        · exact ih
        · rfl

theorem lookup_append_single (k k' : String) (v : Int) :
    ∀ p : Positions, List.lookup k' (p ++ [(k, v)]) =
      match List.lookup k' p with
      | some w => some w
      | none => if k' == k then some v else none := by
  intro p
  induction p with
  | nil =>
      simp only [List.nil_append, List.lookup]
      cases hkk : k' == k <;> simp
  | cons kv t ih =>
      simp only [List.cons_append, List.lookup]
      cases hkk : k' == kv.1
      · exact ih
      · rfl

theorem lookup_none_of_not_any (k : String) :
    ∀ p : Positions, p.any (fun kv => kv.1 == k) = false →
      List.lookup k p = none := by
  intro p
  induction p with
  | nil => intro _; rfl
  | cons kv t ih =>
      intro h
      simp only [List.any_cons, Bool.or_eq_false_iff] at h
      simp only [List.lookup, show (k == kv.1) = false by
        cases hkk : k == kv.1
        · rfl
        · rw [beq_iff_eq] at hkk
          rw [hkk] at h
          simp at h]
      exact ih (by simp [h.2])

theorem Positions.get_set_self (p : Positions) (k : String) (v dflt : Int) :
    Positions.get (Positions.set p k v) k dflt = v := by
  unfold Positions.set
  by_cases hany : p.any (fun kv => kv.1 == k) = true
  · rw [if_pos hany]
    unfold Positions.get
    rw [lookup_map_replace k v p hany]
    rfl
  · rw [if_neg hany]
    unfold Positions.get
    rw [lookup_append_single k k v p,
      lookup_none_of_not_any k p (Bool.not_eq_true _ ▸ hany)]
    simp

theorem Positions.get_set_other (p : Positions) (k k' : String) (v dflt : Int)
    (hne : k' ≠ k) :
    Positions.get (Positions.set p k v) k' dflt = Positions.get p k' dflt := by
  unfold Positions.set
  by_cases hany : p.any (fun kv => kv.1 == k) = true
  · rw [if_pos hany]
    unfold Positions.get
    rw [lookup_map_other k k' v hne p]
  · rw [if_neg hany]
    unfold Positions.get
    rw [lookup_append_single k k' v p]
    have h1 : (k' == k) = false := by simp [hne]
    cases hl : List.lookup k' p
    · simp [h1]
    · rfl

theorem lookup_map_const_zero (s : String) :
    ∀ syms : List String, s ∈ syms →
      List.lookup s (syms.map fun x => (x, (0 : Int))) = some 0 := by
  intro syms
  induction syms with
  | nil => intro h; simp at h
  | cons x t ih =>
      intro h
      simp only [List.map_cons, List.lookup]
      cases hsx : s == x
      · refine ih ?_
        rcases List.mem_cons.mp h with h1 | h1
        · rw [h1] at hsx
          simp at hsx
        · exact h1
      · rfl

/-- Every key of the synthesized snapshot other than CASH maps to 0. -/
theorem buildInitPosition_get_mem (syms : List String) (cash : Int) (s : String)
    (hs : s ∈ syms) (hne : s ≠ "CASH") (d : Int) :
    Positions.get (buildInitPosition syms cash) s d = 0 := by
  unfold buildInitPosition
  rw [Positions.get_set_other _ _ _ _ _ hne]
  unfold Positions.get
  rw [lookup_map_const_zero s syms hs]
  rfl

/-- The synthesized snapshot's CASH entry is the chosen initial cash. -/
theorem buildInitPosition_get_cash (syms : List String) (cash d : Int) :
    Positions.get (buildInitPosition syms cash) "CASH" d = cash :=
  Positions.get_set_self _ _ _ _

/-- The earliest record is one of the ledger's records. -/
theorem earliestRecord_mem : ∀ (rs : List PRec) (r : PRec),
    earliestRecord r rs ∈ r :: rs := by
  intro rs
  induction rs with
  | nil => intro r; exact List.mem_singleton.mpr rfl
  | cons x t ih =>
      intro r
      show earliestRecord (bif recKeyLt x r then x else r) t ∈ r :: x :: t
      cases hcl : recKeyLt x r
      · simp only [Bool.cond_false]
        rcases List.mem_cons.mp (ih r) with h1 | h1
        · rw [h1]; exact List.mem_cons_self _ _
        · exact List.mem_cons_of_mem _ (List.mem_cons_of_mem _ h1)
      · simp only [Bool.cond_true]
        rcases List.mem_cons.mp (ih x) with h1 | h1
        · rw [h1]; exact List.mem_cons_of_mem _ (List.mem_cons_self x _)
        · exact List.mem_cons_of_mem _ (List.mem_cons_of_mem _ h1)

/-- Reduction of `get_today_init_position` in the pre-ledger case: the
previous date has no usable record, the parsed reference date is strictly
before the parsed earliest date, so the result is the id-0 record's positions
when a non-empty one exists and the synthesized snapshot otherwise. -/
theorem getTodayInitPosition_preLedger (lines : List Line) (today : String)
    (td ed : TDate) (r0 : PRec) (rs : List PRec)
    (hp : parseDate today = some td)
    (hyd : (scanFor lines (formatZ (skipWeekendBack 7 (td.toZ - 1)))).1 = [])
    (hrecs : fileRecords lines = r0 :: rs)
    (hed : parseDate (earliestRecord r0 rs).date = some ed)
    (hlt : td.toZ < ed.toZ) :
    getTodayInitPosition lines today =
      match (r0 :: rs).find? (fun x => x.id == 0) with
      | some ir =>
          if ir.positions ≠ [] then some ir.positions
          else some (preLedgerSynthesis (earliestRecord r0 rs))
      | none => some (preLedgerSynthesis (earliestRecord r0 rs)) := by
  simp only [getTodayInitPosition, hp, hyd, hrecs, hed, hlt, ne_eq,
    not_true_eq_false, Bool.false_eq_true, if_false, if_true]

/-! ## Claim C2: pre-ledger behaviour of `get_today_init_position` -/

/-- C2 counterexample: the ledger's earliest record (id 0) is dated after the
reference date and shows non-zero stock holdings, yet the result keeps
AAPL = 5 and CASH = 100 verbatim — not AAPL = 0 with the fallback CASH
default, as the claim's synthesis rule requires. -/
theorem c2_counterexample :
    getTodayInitPosition c2Ledger "2024-02-15" =
      some [("AAPL", 5), ("CASH", 100)] ∧
    Positions.get [("AAPL", 5), ("CASH", 100)] "AAPL" 0 = 5 ∧
    (5 : Int) ≠ 0 ∧
    Positions.get [("AAPL", 5), ("CASH", 100)] "CASH" 0 = 100 ∧
    (100 : Int) ≠ 10000 := by
  refine ⟨by decide, by decide, by decide, by decide, by decide⟩

/-- No stock symbol of the synthesis is the CASH key. -/
theorem stockSymsOf_ne_cash (ep : Positions) : ∀ s ∈ stockSymsOf ep, s ≠ "CASH" := by
  intro s hs
  unfold stockSymsOf at hs
  by_cases hseen : (Positions.keys ep).filter (fun s => s ≠ "CASH") = []
  · rw [if_pos hseen] at hs
    intro hc
    subst hc
    exact absurd hs (by decide)
  · rw [if_neg hseen] at hs
    have := List.mem_filter.mp hs
    exact of_decide_eq_true this.2

/-- C2 (amended): when the reference date precedes the earliest record's
date, the previous date has no usable record, and the ledger has **no id-0
record**, `get_today_init_position` synthesizes a snapshot whose stock keys
are the earliest record's stock keys — or the full default symbol list when
it has none — all set to 0, with CASH equal to the earliest record's CASH
when no stock holding is positive and the 10000 default otherwise. (An id-0
record with non-empty positions instead takes precedence and is returned
verbatim; see the id-0 precedence theorem.) -/
theorem c2_pre_ledger_synthesis (lines : List Line) (today : String)
    (td ed : TDate) (r0 : PRec) (rs : List PRec)
    (hp : parseDate today = some td)
    (hyd : (scanFor lines (formatZ (skipWeekendBack 7 (td.toZ - 1)))).1 = [])
    (hrecs : fileRecords lines = r0 :: rs)
    (hfind : (r0 :: rs).find? (fun x => x.id == 0) = none)
    (hed : parseDate (earliestRecord r0 rs).date = some ed)
    (hlt : td.toZ < ed.toZ)
    (hne : (earliestRecord r0 rs).positions ≠ []) :
    ∃ p : Positions,
      getTodayInitPosition lines today = some p ∧
      (∀ s ∈ stockSymsOf (earliestRecord r0 rs).positions, Positions.get p s 99 = 0) ∧
      Positions.get p "CASH" 0 =
        (if (stockSymsOf (earliestRecord r0 rs).positions).any
              (fun s => 0 < Positions.get (earliestRecord r0 rs).positions s 0) = true
         then 10000
         else Positions.get (earliestRecord r0 rs).positions "CASH" 10000) := by
  have hmain := getTodayInitPosition_preLedger lines today td ed r0 rs hp hyd hrecs hed hlt
  rw [hfind] at hmain
  have hsynth : preLedgerSynthesis (earliestRecord r0 rs) =
      buildInitPosition (stockSymsOf (earliestRecord r0 rs).positions)
        (if (stockSymsOf (earliestRecord r0 rs).positions).any
              (fun s => 0 < Positions.get (earliestRecord r0 rs).positions s 0) = true
         then 10000
         else Positions.get (earliestRecord r0 rs).positions "CASH" 10000) := by
    simp only [preLedgerSynthesis, hne, ne_eq, not_false_eq_true, if_true]
  refine ⟨_, hmain.trans (congrArg some hsynth), fun s hs => ?_, ?_⟩
  · exact buildInitPosition_get_mem _ _ s hs
      (stockSymsOf_ne_cash (earliestRecord r0 rs).positions s hs) 99
  · exact buildInitPosition_get_cash _ _ 0

/-- Witness for C2's amended claim at the concrete no-id-0 ledger. -/
theorem c2_pre_ledger_synthesis_witness :
    ∃ p : Positions,
      getTodayInitPosition c2SynthLedger "2024-02-15" = some p ∧
      (∀ s ∈ stockSymsOf (earliestRecord
          ⟨"2024-03-01", 3, [("AAPL", 5), ("CASH", 100)], noTradeAction⟩ []).positions,
        Positions.get p s 99 = 0) ∧
      Positions.get p "CASH" 0 =
        (if (stockSymsOf (earliestRecord
              ⟨"2024-03-01", 3, [("AAPL", 5), ("CASH", 100)], noTradeAction⟩ []).positions).any
              (fun s => 0 < Positions.get (earliestRecord
                ⟨"2024-03-01", 3, [("AAPL", 5), ("CASH", 100)], noTradeAction⟩ []).positions s 0) = true
         then 10000
         else Positions.get (earliestRecord
            ⟨"2024-03-01", 3, [("AAPL", 5), ("CASH", 100)], noTradeAction⟩ []).positions "CASH" 10000) :=
  c2_pre_ledger_synthesis c2SynthLedger "2024-02-15" ⟨2024, 2, 15⟩ ⟨2024, 3, 1⟩
    ⟨"2024-03-01", 3, [("AAPL", 5), ("CASH", 100)], noTradeAction⟩ []
    (by decide) (by decide) (by decide) (by decide) (by decide) (by decide) (by decide)

/-! ## Claim C9: id-0 precedence over synthesis -/

/-- C9: when the reference date parses strictly earlier than every record's
date, the previous date has no usable record, and the first id-0 record of
the ledger has non-empty positions, `get_today_init_position` returns that
record's positions verbatim — no zeroing, no cash fallback. -/
theorem c9_id0_precedence (lines : List Line) (today : String) (td : TDate)
    (r0 : PRec) (rs : List PRec) (ir : PRec)
    (hp : parseDate today = some td)
    (hyd : (scanFor lines (formatZ (skipWeekendBack 7 (td.toZ - 1)))).1 = [])
    (hrecs : fileRecords lines = r0 :: rs)
    (hafter : ∀ x ∈ fileRecords lines, ∃ dx, parseDate x.date = some dx ∧ td.toZ < dx.toZ)
    (hfind : (r0 :: rs).find? (fun x => x.id == 0) = some ir)
    (hne : ir.positions ≠ []) :
    getTodayInitPosition lines today = some ir.positions := by
  obtain ⟨ed, hed, hlt⟩ := hafter (earliestRecord r0 rs)
    (by rw [hrecs]; exact earliestRecord_mem rs r0)
  rw [getTodayInitPosition_preLedger lines today td ed r0 rs hp hyd hrecs hed hlt, hfind]
  show (if ir.positions ≠ [] then some ir.positions
      else some (preLedgerSynthesis (earliestRecord r0 rs))) = some ir.positions
  rw [if_pos hne]

/-- Witness for C9: the spec's pre-ledger example ledger (earliest record
dated 2024-03-01, id 0, positions {CASH: 10000}) queried at 2024-02-15
returns {CASH: 10000} verbatim. -/
theorem c9_id0_precedence_witness :
    getTodayInitPosition c9Ledger "2024-02-15" = some [("CASH", 10000)] :=
  c9_id0_precedence c9Ledger "2024-02-15" ⟨2024, 2, 15⟩
    ⟨"2024-03-01", 0, [("CASH", 10000)], noTradeAction⟩ []
    ⟨"2024-03-01", 0, [("CASH", 10000)], noTradeAction⟩
    (by decide) (by decide) (by decide)
    (by
      intro x hx
      have hx' : x = ⟨"2024-03-01", 0, [("CASH", 10000)], noTradeAction⟩ := by
        have : x ∈ [(⟨"2024-03-01", 0, [("CASH", 10000)], noTradeAction⟩ : PRec)] := hx
        simpa using this
      rw [hx']
      exact ⟨⟨2024, 3, 1⟩, by decide, by decide⟩)
    (by decide) (by decide)

/-! ## Claim C8: malformed-line handling -/

/-- Dropping blank and unparsable lines leaves the parsed records
unchanged. -/
theorem fileRecords_wellFormedOnly (lines : List Line) :
    fileRecords (wellFormedOnly lines) = fileRecords lines := by
  induction lines with
  | nil => rfl
  | cons l rest ih =>
      cases l with
      | blank =>
          show fileRecords (wellFormedOnly rest) = fileRecords rest
          exact ih
      | malformed =>
          show fileRecords (wellFormedOnly rest) = fileRecords rest
          exact ih
      | record r =>
          show fileRecords (Line.record r :: wellFormedOnly rest) =
            fileRecords (Line.record r :: rest)
          simp only [fileRecords, List.filterMap_cons]
          exact congrArg _ ih

/-- Dropping blank and unparsable lines leaves every date scan unchanged. -/
theorem scanFor_wellFormedOnly (lines : List Line) (d : String) :
    scanFor (wellFormedOnly lines) d = scanFor lines d := by
  suffices haux : ∀ (ls : List Line) (acc : Positions × Int),
      (wellFormedOnly ls).foldl (scanStep d) acc = ls.foldl (scanStep d) acc by
    exact haux lines ([], -1)
  intro ls
  induction ls with
  | nil => intro acc; rfl
  | cons l rest ih =>
      intro acc
      cases l with
      | blank => exact ih acc
      | malformed => exact ih acc
      | record r =>
          show (wellFormedOnly rest).foldl (scanStep d) (scanStep d acc (Line.record r)) = _
          exact ih _

/-- C8 counterexample: one line that fails to parse makes the
already-processed check of `LiveAgent_Hour.get_trading_dates` raise (modelled
as `none`) — the scan aborts instead of skipping the line — while the
price-tools scanner on the same corrupt file returns the result of the
remaining well-formed lines. -/
theorem c8_counterexample :
    getTradingDatesScan [Line.malformed] "2024-03-01 10:00:00" = none ∧
    getTodayInitPosition
      [Line.malformed, Line.record ⟨"2024-02-14", 1, [("CASH", 5)], noTradeAction⟩]
      "2024-02-15" = some [("CASH", 5)] := by
  refine ⟨rfl, by decide⟩

/-- C8 (amended): `get_today_init_position` and `get_latest_position` compute
their results from the well-formed lines only — blank and unparsable lines
are skipped — but the already-processed check in
`LiveAgent_Hour.get_trading_dates` parses each line unguarded, so it aborts
exactly when a blank or unparsable line is hit: on a file of well-formed
lines it never aborts. -/
theorem c8_malformed_line_handling :
    (∀ (lines : List Line) (today : String),
       getTodayInitPosition lines today =
         getTodayInitPosition (wellFormedOnly lines) today) ∧
    (∀ (lines : List Line) (today : String),
       getLatestPosition lines today =
         getLatestPosition (wellFormedOnly lines) today) ∧
    (∀ (lines : List Line) (label : String),
       getTradingDatesScan (wellFormedOnly lines) label ≠ none) := by
  refine ⟨?_, ?_, ?_⟩
  · intro lines today
    simp only [getTodayInitPosition, scanFor_wellFormedOnly, fileRecords_wellFormedOnly]
  · intro lines today
    simp only [getLatestPosition, scanFor_wellFormedOnly]
  · intro lines label
    induction lines with
    | nil => simp [wellFormedOnly, getTradingDatesScan]
    | cons l rest ih =>
        cases l with
        | blank => exact ih
        | malformed => exact ih
        | record r =>
            show getTradingDatesScan (Line.record r :: wellFormedOnly rest) label ≠ none
            unfold getTradingDatesScan
            by_cases hd : (r.date == label) = true
            · rw [if_pos hd]
              simp
            · rw [if_neg hd]
              exact ih

/-- Witness for C8's amended claim on a concrete corrupt file. -/
theorem c8_malformed_line_handling_witness :
    getLatestPosition
        [Line.malformed, Line.record ⟨"2024-02-15", 1, [("CASH", 5)], noTradeAction⟩]
        "2024-02-15" =
      getLatestPosition
        (wellFormedOnly
          [Line.malformed, Line.record ⟨"2024-02-15", 1, [("CASH", 5)], noTradeAction⟩])
        "2024-02-15" :=
  c8_malformed_line_handling.2.1
    [Line.malformed, Line.record ⟨"2024-02-15", 1, [("CASH", 5)], noTradeAction⟩]
    "2024-02-15"
